import Mathlib

/-!
Verification of the signal-ingestion and trade-orchestration engine of the
wallet-copy trading bot.  The definitions below are shallow embeddings of
the JavaScript source (`src/bot.js`, `src/math.js`, `src/logger.js`,
`src/executionAdapters/simulated_v2.js`,
`src/executionAdapters/jitoStub.js`).  Numbers that the source represents
as IEEE doubles are modelled by `ℚ`: every claim settled here is an exact
arithmetic identity or inequality about the real-number semantics of the
formulas.  Transaction signatures and wallet addresses (opaque strings in
the source) are modelled by `Nat`.
-/

namespace CopyBot

/-! ## Signal ingestion: the `ws.on('message')` handler of
`Bot.startWebSocket` -/

/-- A stream frame, reduced to the fields the handler inspects: the
transaction signature, the subscription id (= wallet address), and
whether the log list mentions the Pump.fun program id.  A frame that is
not a `logsNotification`, or fails to parse, behaves exactly like one
with `pumpLog = false` (the handler returns without touching state). -/
structure Msg where
  sig : Nat
  wallet : Nat
  pumpLog : Bool
deriving DecidableEq

/-- A pending `Signal` record as pushed onto `this.queue`
(`{ type: 'signal', wallet, sig, tDetect }`; the timestamp plays no role
in any claim). -/
structure Signal where
  wallet : Nat
  sig : Nat
deriving DecidableEq

/-- Ingestion-relevant state of the `Bot`: the bounded seen-set in
insertion order (oldest first), the pending queue, and the tracked-wallet
membership test. -/
structure IngestState where
  seenMax : Nat
  seen : List Nat
  queue : List Signal
  tracked : Nat → Bool

/-- `this.seen = new Set(Array.from(this.seen).slice(-this.seenMax))`:
when the set has grown past `seenMax`, keep only the last `seenMax`
insertions (in insertion order). -/
def pruneSeen (m : Nat) (ss : List Nat) : List Nat :=
  if ss.length > m then ss.drop (ss.length - m) else ss

/-- The message handler of `Bot.startWebSocket`: return if the logs do
not mention the Pump.fun program; return if the signature is already in
the seen-set; otherwise add the signature (pruning the set to `seenMax`)
and, if the originating wallet is currently tracked, push a `Signal`. -/
def onMessage (st : IngestState) (m : Msg) : IngestState :=
  if !m.pumpLog then st
  else if m.sig ∈ st.seen then st
  else
    let seen2 := pruneSeen st.seenMax (st.seen ++ [m.sig])
    if st.tracked m.wallet then
      { st with seen := seen2, queue := st.queue ++ [⟨m.wallet, m.sig⟩] }
    else
      { st with seen := seen2 }

/-- Deliver a sequence of stream frames to the handler. -/
def runIngest (st : IngestState) (ms : List Msg) : IngestState :=
  ms.foldl onMessage st

/-- Ingestion state as built by the `Bot` constructor (empty seen-set and
queue), with the seen-set bound `m`. -/
def mkIngest (m : Nat) (tracked : Nat → Bool) : IngestState :=
  { seenMax := m, seen := [], queue := [], tracked := tracked }

/-- The constructor sets `this.seenMax = 5000`. -/
def botIngestInit (tracked : Nat → Bool) : IngestState :=
  mkIngest 5000 tracked

/-- A well-formed Pump.fun notification for signature `a` from wallet 0. -/
def mkMsg (a : Nat) : Msg :=
  { sig := a, wallet := 0, pumpLog := true }

theorem pruneSeen_eq_drop (m : Nat) (ss : List Nat) :
    pruneSeen m ss = ss.drop (ss.length - m) := by
  unfold pruneSeen
  split
  · rfl
  · have h : ss.length - m = 0 := by omega
    rw [h, List.drop_zero]

theorem pruneSeen_of_le (m : Nat) (ss : List Nat) (h : ss.length ≤ m) :
    pruneSeen m ss = ss := by
  rw [pruneSeen_eq_drop]
  have h0 : ss.length - m = 0 := by omega
  rw [h0, List.drop_zero]

theorem length_pruneSeen (m : Nat) (ss : List Nat) :
    (pruneSeen m ss).length = min ss.length m := by
  rw [pruneSeen_eq_drop, List.length_drop]
  omega

theorem onMessage_seenMax (st : IngestState) (m : Msg) :
    (onMessage st m).seenMax = st.seenMax := by
  unfold onMessage
  split
  · rfl
  · split
    · rfl
    · split <;> rfl

theorem onMessage_tracked (st : IngestState) (m : Msg) :
    (onMessage st m).tracked = st.tracked := by
  unfold onMessage
  split
  · rfl
  · split
    · rfl
    · split <;> rfl

theorem runIngest_seenMax (st : IngestState) (ms : List Msg) :
    (runIngest st ms).seenMax = st.seenMax := by
  induction ms generalizing st with
  | nil => rfl
  | cons m rest ih =>
    show (runIngest (onMessage st m) rest).seenMax = st.seenMax
    rw [ih, onMessage_seenMax]

theorem runIngest_tracked (st : IngestState) (ms : List Msg) :
    (runIngest st ms).tracked = st.tracked := by
  induction ms generalizing st with
  | nil => rfl
  | cons m rest ih =>
    show (runIngest (onMessage st m) rest).tracked = st.tracked
    rw [ih, onMessage_tracked]

/-- Behaviour of the handler on a fresh, tracked, Pump.fun-tagged
signature. -/
theorem onMessage_fresh (st : IngestState) (a w : Nat)
    (hfresh : a ∉ st.seen) (ht : st.tracked w = true) :
    onMessage st { sig := a, wallet := w, pumpLog := true } =
      { st with seen := pruneSeen st.seenMax (st.seen ++ [a]),
                queue := st.queue ++ [⟨w, a⟩] } := by
  unfold onMessage
  simp [hfresh, ht]

/-- The handler drops a message whose signature is currently in the
seen-set: state is unchanged, nothing is enqueued. -/
theorem onMessage_dup (st : IngestState) (m : Msg)
    (hdup : m.sig ∈ st.seen) : onMessage st m = st := by
  unfold onMessage
  split
  · rfl
  · simp [hdup]

theorem onMessage_seen_length (st : IngestState) (m : Msg)
    (h : st.seen.length ≤ st.seenMax) :
    (onMessage st m).seen.length ≤ (onMessage st m).seenMax := by
  rw [onMessage_seenMax]
  unfold onMessage
  split
  · exact h
  · split
    · exact h
    · split <;>
      · show (pruneSeen st.seenMax (st.seen ++ [m.sig])).length ≤ st.seenMax
        rw [length_pruneSeen]
        omega

/-- Along any message sequence the seen-set size stays within the bound. -/
theorem runIngest_seen_length (st : IngestState) (ms : List Msg)
    (h : st.seen.length ≤ st.seenMax) :
    (runIngest st ms).seen.length ≤ (runIngest st ms).seenMax := by
  induction ms generalizing st with
  | nil => exact h
  | cons m rest ih =>
    show (runIngest (onMessage st m) rest).seen.length ≤ _
    refine ih (onMessage st m) ?_
    exact onMessage_seen_length st m h

theorem onMessage_nonpump (st : IngestState) (m : Msg)
    (h : m.pumpLog = false) : onMessage st m = st := by
  unfold onMessage
  simp [h]

theorem onMessage_mkMsg (st : IngestState) (a : Nat)
    (hfresh : a ∉ st.seen) (ht : st.tracked 0 = true) :
    onMessage st (mkMsg a) =
      { st with seen := pruneSeen st.seenMax (st.seen ++ [a]),
                queue := st.queue ++ [⟨0, a⟩] } :=
  onMessage_fresh st a 0 hfresh ht

/-- Delivering a list of pairwise-distinct fresh signatures (all tracked,
all Pump.fun-tagged): each one is enqueued, and the seen-set ends as the
most recent `seenMax` insertions. -/
theorem runIngest_freshList (L : List Nat) (st : IngestState)
    (hlen : st.seen.length ≤ st.seenMax)
    (hnd : (st.seen ++ L).Nodup)
    (ht : st.tracked 0 = true) :
    (runIngest st (L.map mkMsg)).seen =
        (st.seen ++ L).drop (st.seen.length + L.length - st.seenMax)
    ∧ (runIngest st (L.map mkMsg)).queue =
        st.queue ++ L.map (fun a => (⟨0, a⟩ : Signal)) := by
  induction L generalizing st with
  | nil =>
    simp only [List.map_nil, runIngest, List.foldl_nil, List.append_nil,
      List.length_nil, Nat.add_zero]
    rw [Nat.sub_eq_zero_of_le hlen, List.drop_zero]
    exact ⟨rfl, trivial⟩
  | cons a L ih =>
    have ha : a ∉ st.seen := by
      have hd := (List.nodup_append.mp hnd).2.2
      intro hmem
      exact hd hmem (List.mem_cons_self a L)
    have hstep : runIngest st ((a :: L).map mkMsg) =
        runIngest (onMessage st (mkMsg a)) (L.map mkMsg) := rfl
    rw [hstep, onMessage_mkMsg st a ha ht]
    by_cases hl : st.seen.length < st.seenMax
    · -- no eviction yet
      have hle : (st.seen ++ [a]).length ≤ st.seenMax := by
        simp only [List.length_append, List.length_singleton]
        omega
      rw [pruneSeen_of_le _ _ hle]
      have hnd' : ((st.seen ++ [a]) ++ L).Nodup := by
        rw [List.append_assoc]
        simpa using hnd
      obtain ⟨hseen, hqueue⟩ := ih
        { st with seen := st.seen ++ [a], queue := st.queue ++ [⟨0, a⟩] }
        hle hnd' ht
      dsimp only at hseen hqueue
      refine ⟨?_, ?_⟩
      · have hl2 : (st.seen ++ [a]) ++ L = st.seen ++ a :: L := by simp
        have hidx : (st.seen ++ [a]).length + L.length - st.seenMax =
            st.seen.length + (a :: L).length - st.seenMax := by
          simp only [List.length_append, List.length_cons, List.length_nil]
          omega
        rw [hseen, hidx, hl2]
      · rw [hqueue]
        simp
    · -- seen-set is exactly full: the oldest entry is evicted
      have heq : st.seen.length = st.seenMax := by omega
      have hprune : pruneSeen st.seenMax (st.seen ++ [a]) =
          (st.seen ++ [a]).drop 1 := by
        rw [pruneSeen_eq_drop]
        congr 1
        simp only [List.length_append, List.length_singleton]
        omega
      rw [hprune]
      have hsub : ((st.seen ++ [a]).drop 1 ++ L).Sublist ((st.seen ++ [a]) ++ L) :=
        List.Sublist.append (List.drop_sublist 1 _) (List.Sublist.refl L)
      have hnd0 : ((st.seen ++ [a]) ++ L).Nodup := by
        rw [List.append_assoc]
        simpa using hnd
      have hnd' : ((st.seen ++ [a]).drop 1 ++ L).Nodup := hnd0.sublist hsub
      have hlen' : ((st.seen ++ [a]).drop 1).length ≤ st.seenMax := by
        rw [List.length_drop]
        simp only [List.length_append, List.length_singleton]
        omega
      obtain ⟨hseen, hqueue⟩ := ih
        { st with seen := (st.seen ++ [a]).drop 1, queue := st.queue ++ [⟨0, a⟩] }
        hlen' hnd' ht
      dsimp only at hseen hqueue
      refine ⟨?_, ?_⟩
      · have hidx : ((st.seen ++ [a]).drop 1).length + L.length - st.seenMax =
            L.length := by
          rw [List.length_drop]
          simp only [List.length_append, List.length_cons, List.length_nil]
          omega
        have hdropapp : ((st.seen ++ [a]) ++ L).drop 1 =
            (st.seen ++ [a]).drop 1 ++ L := by
          exact List.drop_append_of_le_length (by simp)
        have hl2 : (st.seen ++ [a]) ++ L = st.seen ++ a :: L := by simp
        have hidx2 : st.seen.length + (a :: L).length - st.seenMax =
            L.length + 1 := by
          simp only [List.length_cons]
          omega
        rw [hseen, hidx, ← hdropapp, List.drop_drop, hl2, hidx2,
          Nat.add_comm 1 L.length]
      · rw [hqueue]
        simp

/-- C8: after each completed ingestion-handler invocation the seen-set
size is at most the configured maximum (the `Bot` constructor sets
`seenMax = 5000`), no matter how many signatures were ever inserted; the
prune always retains exactly the most recently inserted `seenMax`
entries in insertion order (`slice(-seenMax)`), and in the overflow case
(set exactly full, fresh signature inserted) it drops exactly the oldest
entry, leaving exactly `seenMax` entries. -/
theorem seen_bounded_and_eviction :
    (∀ (tr : Nat → Bool) (ms : List Msg),
        (runIngest (botIngestInit tr) ms).seen.length ≤ 5000)
    ∧ (∀ (m : Nat) (ss : List Nat),
        pruneSeen m ss = ss.drop (ss.length - m))
    ∧ (∀ (m : Nat) (ss : List Nat) (a : Nat), ss.length = m →
        pruneSeen m (ss ++ [a]) = (ss ++ [a]).drop 1
        ∧ (pruneSeen m (ss ++ [a])).length = m) := by
  refine ⟨?_, pruneSeen_eq_drop, ?_⟩
  · intro tr ms
    have h := runIngest_seen_length (botIngestInit tr) ms
      (by simp [botIngestInit, mkIngest])
    rw [runIngest_seenMax] at h
    exact h
  · intro m ss a hlen
    constructor
    · rw [pruneSeen_eq_drop]
      congr 1
      simp only [List.length_append, List.length_cons, List.length_nil]
      omega
    · rw [length_pruneSeen]
      simp only [List.length_append, List.length_cons, List.length_nil]
      omega

theorem seen_bounded_and_eviction_witness :
    pruneSeen 2 ([5, 6] ++ [7]) = ([5, 6] ++ [7]).drop 1
    ∧ (pruneSeen 2 ([5, 6] ++ [7])).length = 2 :=
  seen_bounded_and_eviction.2.2 2 [5, 6] 7 rfl

/-- 5001 pairwise-distinct signatures: signature 0 followed by
signatures 1..5000. -/
def evictSigs : List Nat := 0 :: (List.range 5000).map (· + 1)

/-- A stream in which signature 0 arrives, then 5000 distinct other
signatures, then signature 0 again. -/
def evictMsgs : List Msg := evictSigs.map mkMsg ++ [mkMsg 0]

/-- C1 counterexample: after 5000 distinct other signatures are inserted
into the seen-set, signature 0 is evicted, and a later duplicate message
for signature 0 is enqueued a second time — two `Signal`s for the same
transaction signature end up on the pending queue. -/
theorem ingest_duplicate_after_eviction :
    ((runIngest (botIngestInit fun _ => true) evictMsgs).queue.countP
        (fun q => q.sig == 0)) = 2 := by
  have hlen5001 : evictSigs.length = 5001 := by
    simp [evictSigs]
  have hnodup : ((botIngestInit fun _ => true).seen ++ evictSigs).Nodup := by
    show (([] : List Nat) ++ evictSigs).Nodup
    rw [List.nil_append]
    unfold evictSigs
    refine List.nodup_cons.mpr ⟨?_, ?_⟩
    · simp
    · refine List.Nodup.map ?_ (List.nodup_range 5000)
      intro x y h
      dsimp only at h
      omega
  obtain ⟨hseen, hqueue⟩ := runIngest_freshList evictSigs
    (botIngestInit fun _ => true)
    (by simp [botIngestInit, mkIngest]) hnodup rfl
  simp only [botIngestInit, mkIngest] at hseen hqueue
  rw [List.nil_append] at hseen
  have hidx : List.length ([] : List Nat) + evictSigs.length - 5000 = 1 := by
    rw [hlen5001]
    simp
  rw [hidx] at hseen
  have hseen1 : (runIngest (botIngestInit fun _ => true)
      (evictSigs.map mkMsg)).seen = (List.range 5000).map (· + 1) := by
    rw [show (botIngestInit fun _ => true) =
          ({ seenMax := 5000, seen := [], queue := [],
             tracked := fun _ => true } : IngestState) from rfl]
    rw [hseen]
    unfold evictSigs
    rfl
  have hqueue1 : (runIngest (botIngestInit fun _ => true)
      (evictSigs.map mkMsg)).queue =
      evictSigs.map (fun a => (⟨0, a⟩ : Signal)) := by
    rw [show (botIngestInit fun _ => true) =
          ({ seenMax := 5000, seen := [], queue := [],
             tracked := fun _ => true } : IngestState) from rfl]
    rw [hqueue]
    rw [List.nil_append]
  have h0fresh : 0 ∉ (runIngest (botIngestInit fun _ => true)
      (evictSigs.map mkMsg)).seen := by
    rw [hseen1]
    simp
  have htr : (runIngest (botIngestInit fun _ => true)
      (evictSigs.map mkMsg)).tracked 0 = true := by
    rw [runIngest_tracked]
    rfl
  have hsplit : runIngest (botIngestInit fun _ => true) evictMsgs =
      onMessage (runIngest (botIngestInit fun _ => true)
        (evictSigs.map mkMsg)) (mkMsg 0) := by
    unfold evictMsgs runIngest
    rw [List.foldl_append, List.foldl_cons, List.foldl_nil]
  rw [hsplit, onMessage_mkMsg _ 0 h0fresh htr]
  dsimp only
  rw [hqueue1, List.countP_append, List.countP_map]
  have hone : List.countP ((fun q => q.sig == 0) ∘
      (fun a => (⟨0, a⟩ : Signal))) evictSigs = 1 := by
    unfold evictSigs
    rw [List.countP_cons, List.countP_map]
    have hz : List.countP (((fun q => q.sig == 0) ∘
        (fun a => (⟨0, a⟩ : Signal))) ∘ (· + 1)) (List.range 5000) = 0 := by
      refine List.countP_eq_zero.mpr ?_
      intro b _
      simp [Function.comp]
    rw [hz]
    simp [Function.comp]
  rw [hone]
  simp

/-- Helper invariant: as long as every delivered signature belongs to a
duplicate-free list `S` no longer than the seen-set bound, the seen-set
never overflows (so nothing is ever evicted) and each signature is
enqueued at most once. -/
theorem runIngest_count_le_one (S : List Nat)
    (ms : List Msg) (st : IngestState) (s : Nat)
    (hsigs : ∀ m ∈ ms, m.sig ∈ S)
    (hSlen : S.length ≤ st.seenMax)
    (hseen_nd : st.seen.Nodup)
    (hseen_sub : st.seen ⊆ S)
    (hcount : st.queue.countP (fun q => q.sig == s) ≤ 1)
    (hmem : 1 ≤ st.queue.countP (fun q => q.sig == s) → s ∈ st.seen) :
    (runIngest st ms).queue.countP (fun q => q.sig == s) ≤ 1 := by
  induction ms generalizing st with
  | nil => exact hcount
  | cons m rest ih =>
    have hstep : runIngest st (m :: rest) = runIngest (onMessage st m) rest := rfl
    rw [hstep]
    by_cases hp : m.pumpLog
    case neg =>
      rw [onMessage_nonpump st m (by simpa using hp)]
      exact ih st (fun x hx => hsigs x (List.mem_cons_of_mem m hx))
        hSlen hseen_nd hseen_sub hcount hmem
    case pos =>
    by_cases hdup : m.sig ∈ st.seen
    · rw [onMessage_dup st m hdup]
      exact ih st (fun x hx => hsigs x (List.mem_cons_of_mem m hx))
        hSlen hseen_nd hseen_sub hcount hmem
    · -- fresh signature: no eviction because the seen-set cannot overflow
      have hmsig : m.sig ∈ S := hsigs m (List.mem_cons_self m rest)
      have hnd2 : (st.seen ++ [m.sig]).Nodup := by
        rw [List.nodup_append]
        refine ⟨hseen_nd, List.nodup_singleton _, ?_⟩
        intro x hx hx2
        rw [List.mem_singleton] at hx2
        subst hx2
        exact hdup hx
      have hsub2 : st.seen ++ [m.sig] ⊆ S := by
        intro x hx
        rcases List.mem_append.mp hx with h | h
        · exact hseen_sub h
        · rw [List.mem_singleton] at h
          subst h
          exact hmsig
      have hlen2 : (st.seen ++ [m.sig]).length ≤ st.seenMax :=
        le_trans (List.Subperm.length_le (hnd2.subperm hsub2)) hSlen
      have hpr : pruneSeen st.seenMax (st.seen ++ [m.sig]) = st.seen ++ [m.sig] :=
        pruneSeen_of_le _ _ hlen2
      have hform : onMessage st m =
          if st.tracked m.wallet then
            { st with seen := st.seen ++ [m.sig],
                      queue := st.queue ++ [⟨m.wallet, m.sig⟩] }
          else { st with seen := st.seen ++ [m.sig] } := by
        unfold onMessage
        rw [if_neg (by simpa using hp), if_neg hdup, hpr]
      rw [hform]
      by_cases htr : st.tracked m.wallet
      · rw [if_pos htr]
        by_cases hsig : m.sig = s
        · -- first occurrence of s: the old count must be zero
          have hc0 : st.queue.countP (fun q => q.sig == s) = 0 := by
            by_contra hne
            have h1 : 1 ≤ st.queue.countP (fun q => q.sig == s) := by omega
            exact hdup (hsig ▸ hmem h1)
          refine ih _ (fun x hx => hsigs x (List.mem_cons_of_mem m hx))
            hSlen hnd2 hsub2 ?_ ?_
          · dsimp only
            rw [List.countP_append, hc0]
            simp [hsig]
          · intro _
            dsimp only
            rw [List.mem_append, List.mem_singleton]
            right
            exact hsig.symm
        · refine ih _ (fun x hx => hsigs x (List.mem_cons_of_mem m hx))
            hSlen hnd2 hsub2 ?_ ?_
          · dsimp only
            rw [List.countP_append]
            have : List.countP (fun q => q.sig == s) [(⟨m.wallet, m.sig⟩ : Signal)] = 0 := by
              simp [hsig]
            omega
          · intro hge
            dsimp only at hge ⊢
            rw [List.countP_append] at hge
            have hz : List.countP (fun q => q.sig == s) [(⟨m.wallet, m.sig⟩ : Signal)] = 0 := by
              simp [hsig]
            rw [hz] at hge
            exact List.mem_append_left _ (hmem (by omega))
      · rw [if_neg htr]
        refine ih _ (fun x hx => hsigs x (List.mem_cons_of_mem m hx))
          hSlen hnd2 hsub2 hcount ?_
        intro hge
        dsimp only at hge ⊢
        exact List.mem_append_left _ (hmem hge)

/-- C1 amended: while a signature remains in the seen-set, duplicates of
it are dropped; since the seen-set retains only the most recent `seenMax`
insertions, at most one `Signal` is ever enqueued for a signature
provided the delivered messages carry at most `seenMax` distinct
signatures in total.  (Beyond that bound the signature can be evicted
and a duplicate is enqueued again — see the counterexample.) -/
theorem ingest_dedupe_within_capacity
    (m : Nat) (tr : Nat → Bool) (ms : List Msg) (s : Nat)
    (h : (ms.map Msg.sig).dedup.length ≤ m) :
    ((runIngest (mkIngest m tr) ms).queue.countP (fun q => q.sig == s)) ≤ 1 := by
  refine runIngest_count_le_one (ms.map Msg.sig).dedup
    ms (mkIngest m tr) s ?_ ?_ ?_ ?_ ?_ ?_
  · intro mm hm
    exact List.mem_dedup.mpr (List.mem_map_of_mem Msg.sig hm)
  · simpa [mkIngest] using h
  · simp [mkIngest]
  · simp [mkIngest]
  · simp [mkIngest]
  · simp [mkIngest]

theorem ingest_dedupe_within_capacity_witness :
    ((runIngest (mkIngest 2 fun _ => true) [mkMsg 0, mkMsg 0]).queue.countP
        (fun q => q.sig == 0)) ≤ 1 :=
  ingest_dedupe_within_capacity 2 (fun _ => true) [mkMsg 0, mkMsg 0] 0
    (by decide)

/-! ## PricingMath (`src/math.js`) -/

/-- `exitPriceForTargetUsd`: solve for the exit price such that
`(price * size) * (1 - fee) * (1 - slip)` equals the cost basis
`entryUsd * sizeTokens` (entry fees deliberately ignored) plus the
target profit. -/
def exitPriceForTargetUsd
    (entryUsd sizeTokens feeBps exitSlipBps targetUsd : ℚ) : ℚ :=
  let netFactor := (1 - feeBps / 10000) * (1 - exitSlipBps / 10000)
  let cost := entryUsd * sizeTokens
  let needed := cost + targetUsd
  needed / (sizeTokens * netFactor)

/-- `realizedProfitUsd`: P/L with entry-side fee included in the cost and
exit-side fee deducted from the proceeds. -/
def realizedProfitUsd
    (entryUsd exitUsd sizeTokens feeBpsEntry feeBpsExit : ℚ) : ℚ :=
  let cost := entryUsd * sizeTokens * (1 + feeBpsEntry / 10000)
  let proceeds := exitUsd * sizeTokens * (1 - feeBpsExit / 10000)
  proceeds - cost

/-- C6: the price returned by `exitPriceForTargetUsd` satisfies the
defining equation `(p * size) * (1 - fee/10000) * (1 - slip/10000) =
entryUsd * size + targetUsd` (entry-side fees excluded from the cost
basis), and feeding it back into `realizedProfitUsd` with zero entry fee
and an exit-side bps equivalent to the combined fee-and-slippage factor
returns exactly `targetUsd`; in particular the documented instance
(entry 0.001, size 10000, fee 60 bps, slippage 200 bps, target 7.5)
round-trips to exactly 7.5 in exact arithmetic. -/
theorem math_exit_price_round_trip :
    (∀ entryUsd sizeTokens feeBps exitSlipBps targetUsd : ℚ,
        0 < entryUsd → 0 < sizeTokens →
        0 ≤ feeBps → feeBps < 10000 → 0 ≤ exitSlipBps → exitSlipBps < 10000 →
        (exitPriceForTargetUsd entryUsd sizeTokens feeBps exitSlipBps targetUsd
            * sizeTokens) * (1 - feeBps / 10000) * (1 - exitSlipBps / 10000)
          = entryUsd * sizeTokens + targetUsd
        ∧ realizedProfitUsd entryUsd
            (exitPriceForTargetUsd entryUsd sizeTokens feeBps exitSlipBps targetUsd)
            sizeTokens 0
            (10000 * (1 - (1 - feeBps / 10000) * (1 - exitSlipBps / 10000)))
          = targetUsd)
    ∧ realizedProfitUsd (1/1000)
        (exitPriceForTargetUsd (1/1000) 10000 60 200 (15/2)) 10000 0 (1294/5)
      = 15/2 := by
  constructor
  · intro entryUsd sizeTokens feeBps exitSlipBps targetUsd he hs hf1 hf2 hsl1 hsl2
    have h1 : (0:ℚ) < 1 - feeBps / 10000 := by
      have := (div_lt_one (show (0:ℚ) < 10000 by norm_num)).mpr hf2
      linarith
    have h2 : (0:ℚ) < 1 - exitSlipBps / 10000 := by
      have := (div_lt_one (show (0:ℚ) < 10000 by norm_num)).mpr hsl2
      linarith
    have hsne : sizeTokens ≠ 0 := ne_of_gt hs
    have hfne : (1:ℚ) - feeBps / 10000 ≠ 0 := ne_of_gt h1
    have hgne : (1:ℚ) - exitSlipBps / 10000 ≠ 0 := ne_of_gt h2
    have hSF : sizeTokens * ((1 - feeBps / 10000) * (1 - exitSlipBps / 10000)) ≠ 0 :=
      mul_ne_zero hsne (mul_ne_zero hfne hgne)
    have key : exitPriceForTargetUsd entryUsd sizeTokens feeBps exitSlipBps targetUsd
        * (sizeTokens * ((1 - feeBps / 10000) * (1 - exitSlipBps / 10000)))
        = entryUsd * sizeTokens + targetUsd := by
      show (entryUsd * sizeTokens + targetUsd)
          / (sizeTokens * ((1 - feeBps / 10000) * (1 - exitSlipBps / 10000)))
          * (sizeTokens * ((1 - feeBps / 10000) * (1 - exitSlipBps / 10000)))
          = entryUsd * sizeTokens + targetUsd
      exact div_mul_cancel₀ _ hSF
    constructor
    · linear_combination key
    · have hfactor : (1:ℚ)
          - 10000 * (1 - (1 - feeBps / 10000) * (1 - exitSlipBps / 10000)) / 10000
          = (1 - feeBps / 10000) * (1 - exitSlipBps / 10000) := by
        rw [mul_div_cancel_left₀ _ (by norm_num : (10000:ℚ) ≠ 0)]
        ring
      unfold realizedProfitUsd
      dsimp only
      rw [hfactor]
      linear_combination key
  · norm_num [realizedProfitUsd, exitPriceForTargetUsd]

theorem math_exit_price_round_trip_witness :
    (exitPriceForTargetUsd (1/1000) 10000 60 200 (15/2) * 10000)
        * (1 - 60 / 10000) * (1 - 200 / 10000)
      = (1/1000) * 10000 + 15/2
    ∧ realizedProfitUsd (1/1000)
        (exitPriceForTargetUsd (1/1000) 10000 60 200 (15/2)) 10000 0
        (10000 * (1 - (1 - 60 / 10000) * (1 - 200 / 10000)))
      = 15/2 :=
  math_exit_price_round_trip.1 (1/1000) 10000 60 200 (15/2)
    (by norm_num) (by norm_num) (by norm_num) (by norm_num)
    (by norm_num) (by norm_num)

/-! ## ExecutionAdapter: the simulator
(`src/executionAdapters/simulated_v2.js`) -/

/-- Result record of `SimulatedAdapterV2.buy`. -/
structure BuyFill where
  sizeTokens : ℚ
  fillUsd : ℚ
  costUsd : ℚ
  costSol : ℚ
  costUsdNoFee : ℚ

/-- Result record of `SimulatedAdapterV2.sell`. -/
structure SellFill where
  sizeTokens : ℚ
  fillUsd : ℚ
  proceedsUsd : ℚ

/-- `SimulatedAdapterV2._computeBuy`: naive token estimate, one
average-impact correction pass, and the resulting average fill price. -/
def computeBuy (tokenPriceUsd liquidityTokens sizeUsd : ℚ) : ℚ × ℚ :=
  let tokens := sizeUsd / tokenPriceUsd
  let avgImpactFactor := 1 + tokens / (2 * liquidityTokens)
  let effectivePrice := tokenPriceUsd * avgImpactFactor
  let costUsd := tokens * effectivePrice
  let adjustment := sizeUsd / costUsd
  let tokens2 := tokens * adjustment
  let newAvgImpactFactor := 1 + tokens2 / (2 * liquidityTokens)
  (tokens2, tokenPriceUsd * newAvgImpactFactor)

/-- `SimulatedAdapterV2.buy`: notional in USD is `solAmount * solUsd`;
the protocol fee is charged on top of the notional. -/
def simBuy (feeBps tokenPriceUsd liquidityTokens solAmount solUsd : ℚ) :
    BuyFill :=
  let sizeUsd := solAmount * solUsd
  let tp := computeBuy tokenPriceUsd liquidityTokens sizeUsd
  let feeUsd := sizeUsd * feeBps / 10000
  { sizeTokens := tp.1, fillUsd := tp.2, costUsd := sizeUsd + feeUsd,
    costSol := solAmount, costUsdNoFee := sizeUsd }

/-- `SimulatedAdapterV2.sell`: the fill price sits below the mid-price by
the average impact factor (clamped at `0.000001`); the protocol fee is
deducted from the proceeds. -/
def simSell (feeBps tokenPriceUsd liquidityTokens sizeTokens : ℚ) :
    SellFill :=
  let avgImpactFactor := 1 - sizeTokens / (2 * liquidityTokens)
  let fillPriceUsd := tokenPriceUsd * max avgImpactFactor (1 / 1000000)
  let proceedsUsdNoFee := sizeTokens * fillPriceUsd
  let feeUsd := proceedsUsdNoFee * feeBps / 10000
  { sizeTokens := sizeTokens, fillUsd := fillPriceUsd,
    proceedsUsd := proceedsUsdNoFee - feeUsd }

theorem computeBuy_fst (P L U : ℚ) (hP : 0 < P) (hL : 0 < L) (hU : 0 < U) :
    (computeBuy P L U).1 = 2 * L * U / (2 * L * P + U) := by
  have hPne : P ≠ 0 := ne_of_gt hP
  have hLne : L ≠ 0 := ne_of_gt hL
  have hUne : U ≠ 0 := ne_of_gt hU
  have hden : (2 * L * P + U) ≠ 0 := by positivity
  show U / P * (U / (U / P * (P * (1 + U / P / (2 * L))))) = _
  have hinner : U / P * (P * (1 + U / P / (2 * L)))
      = U * (2 * L * P + U) / (2 * L * P) := by
    field_simp
    ring
  rw [hinner, div_div_eq_mul_div]
  field_simp
  ring

theorem computeBuy_snd (P L U : ℚ) :
    (computeBuy P L U).2 = P * (1 + (computeBuy P L U).1 / (2 * L)) := rfl

/-- C7: with zero protocol fee and an unmoved mid-price, a buy of any
strictly positive USD notional followed immediately by a sell of exactly
the tokens received strictly loses money: the buy fill price exceeds the
mid-price by the factor `1 + tokens/(2*liquidity)`, the sell fill price
sits below it by `1 - tokens/(2*liquidity)` (when that factor is above
the `0.000001` clamp), and the proceeds are strictly below the cost for
every positive size. -/
theorem sim_buy_sell_impact_loss (P L solAmount solUsd : ℚ)
    (hP : 0 < P) (hL : 0 < L) (ha : 0 < solAmount) (hs : 0 < solUsd) :
    (simSell 0 P L (simBuy 0 P L solAmount solUsd).sizeTokens).proceedsUsd
        < (simBuy 0 P L solAmount solUsd).costUsd
    ∧ (simBuy 0 P L solAmount solUsd).fillUsd
        = P * (1 + (simBuy 0 P L solAmount solUsd).sizeTokens / (2 * L))
    ∧ ((1 : ℚ) / 1000000
          ≤ 1 - (simBuy 0 P L solAmount solUsd).sizeTokens / (2 * L) →
        (simSell 0 P L (simBuy 0 P L solAmount solUsd).sizeTokens).fillUsd
          = P * (1 - (simBuy 0 P L solAmount solUsd).sizeTokens / (2 * L))) := by
  have hU : 0 < solAmount * solUsd := mul_pos ha hs
  have hT : (simBuy 0 P L solAmount solUsd).sizeTokens
      = 2 * L * (solAmount * solUsd) / (2 * L * P + solAmount * solUsd) :=
    computeBuy_fst P L (solAmount * solUsd) hP hL hU
  have hcost : (simBuy 0 P L solAmount solUsd).costUsd = solAmount * solUsd := by
    show solAmount * solUsd + solAmount * solUsd * 0 / 10000 = _
    ring
  have hsellP : (simSell 0 P L (simBuy 0 P L solAmount solUsd).sizeTokens).proceedsUsd
      = (simBuy 0 P L solAmount solUsd).sizeTokens
        * (P * max (1 - (simBuy 0 P L solAmount solUsd).sizeTokens / (2 * L))
            (1 / 1000000)) := by
    show _ - _ * 0 / 10000 = _
    ring
  have hden : (0:ℚ) < 2 * L * P + solAmount * solUsd := by positivity
  refine ⟨?_, rfl, ?_⟩
  · rw [hsellP, hcost, hT]
    have hA : 1 - 2 * L * (solAmount * solUsd) / (2 * L * P + solAmount * solUsd) / (2 * L)
        = 2 * L * P / (2 * L * P + solAmount * solUsd) := by
      field_simp
      ring
    rw [hA]
    rcases max_cases (2 * L * P / (2 * L * P + solAmount * solUsd))
        ((1:ℚ) / 1000000) with ⟨hmax, _⟩ | ⟨hmax, _⟩
    · rw [hmax]
      have h1 : 2 * L * (solAmount * solUsd) / (2 * L * P + solAmount * solUsd)
          * (P * (2 * L * P / (2 * L * P + solAmount * solUsd)))
          = 4 * L^2 * P^2 * (solAmount * solUsd)
              / ((2 * L * P + solAmount * solUsd)^2) := by
        field_simp
        ring
      rw [h1, div_lt_iff₀ (by positivity)]
      nlinarith [mul_pos hL hP, mul_pos (mul_pos hL hP) hU, mul_pos hU hU,
        mul_pos hU (mul_pos hU hU)]
    · rw [hmax]
      have h2 : 2 * L * (solAmount * solUsd) / (2 * L * P + solAmount * solUsd)
          * (P * ((1:ℚ) / 1000000))
          = 2 * L * P * (solAmount * solUsd)
              / ((2 * L * P + solAmount * solUsd) * 1000000) := by
        field_simp
        ring
      rw [h2, div_lt_iff₀ (by positivity)]
      nlinarith [mul_pos (mul_pos hL hP) hU, mul_pos hU hU, mul_pos hU hden]
  · intro hcond
    show P * max (1 - (simBuy 0 P L solAmount solUsd).sizeTokens / (2 * L))
        (1 / 1000000) = _
    rw [max_eq_left hcond]

theorem sim_buy_sell_impact_loss_witness :
    (simSell 0 1 1 (simBuy 0 1 1 1 1).sizeTokens).proceedsUsd
        < (simBuy 0 1 1 1 1).costUsd
    ∧ (simBuy 0 1 1 1 1).fillUsd
        = 1 * (1 + (simBuy 0 1 1 1 1).sizeTokens / (2 * 1))
    ∧ ((1 : ℚ) / 1000000 ≤ 1 - (simBuy 0 1 1 1 1).sizeTokens / (2 * 1) →
        (simSell 0 1 1 (simBuy 0 1 1 1 1).sizeTokens).fillUsd
          = 1 * (1 - (simBuy 0 1 1 1 1).sizeTokens / (2 * 1))) :=
  sim_buy_sell_impact_loss 1 1 1 1 (by norm_num) (by norm_num)
    (by norm_num) (by norm_num)

/-! ## ExecutionAdapter: the live stub
(`src/executionAdapters/jitoStub.js`, and the inline `JitoAdapter` of the
alternate `bot.js` revision, whose `buildPumpFunBuyTx` /
`buildPumpFunSellTx` helpers are not defined anywhere in the repository,
so every invocation raises a `ReferenceError` before doing anything). -/

def jitoStubBuy (_solAmount _markUsd : ℚ) : Except String BuyFill :=
  Except.error "JitoAdapter.buy not implemented yet"

def jitoStubSell (_sizeTokens _targetExitUsd : ℚ) : Except String SellFill :=
  Except.error "JitoAdapter.sell not implemented yet"

def jitoInlineBuy (_solAmount _markUsd : ℚ) : Except String BuyFill :=
  Except.error "ReferenceError: buildPumpFunBuyTx is not defined"

def jitoInlineSell (_sizeTokens _targetExitUsd : ℚ) : Except String SellFill :=
  Except.error "ReferenceError: buildPumpFunSellTx is not defined"

/-- C9: every invocation of the live adapter's `buy` or `sell`, with any
arguments, fails with an explicit unimplemented-operation error and never
returns a fill. -/
theorem jito_stub_always_errors :
    (∀ a m : ℚ, jitoStubBuy a m
        = Except.error "JitoAdapter.buy not implemented yet")
    ∧ (∀ s t : ℚ, jitoStubSell s t
        = Except.error "JitoAdapter.sell not implemented yet")
    ∧ (∀ (a m : ℚ) (f : BuyFill), jitoStubBuy a m ≠ Except.ok f)
    ∧ (∀ (s t : ℚ) (f : SellFill), jitoStubSell s t ≠ Except.ok f)
    ∧ (∀ (a m : ℚ) (f : BuyFill), jitoInlineBuy a m ≠ Except.ok f)
    ∧ (∀ (s t : ℚ) (f : SellFill), jitoInlineSell s t ≠ Except.ok f) := by
  refine ⟨fun _ _ => rfl, fun _ _ => rfl, ?_, ?_, ?_, ?_⟩ <;>
    intro _ _ f h <;> exact Except.noConfusion h

/-! ## SessionLedger (`src/logger.js`) -/

/-- A trade record `{ id, ...meta }`; the non-id part of the caller's
meta object is abstracted as `data`. -/
structure Trade (α : Type) where
  id : Nat
  data : α
deriving DecidableEq

/-- `SessionLog`: an append-only trade list and the id counter
(initialised to 1). -/
structure SessionLog (α : Type) where
  trades : List (Trade α)
  nextId : Nat

def SessionLog.start (α : Type) : SessionLog α := ⟨[], 1⟩

/-- `SessionLog.newTrade(meta)`: builds `{ id: this.nextId++, ...meta }`
— when the caller's meta carries an `id` key the spread overrides the
counter value in the record, but the counter increments regardless —
then appends the record and returns it. -/
def newTrade {α : Type} (st : SessionLog α) (idOverride : Option Nat)
    (d : α) : Trade α × SessionLog α :=
  let t : Trade α := ⟨idOverride.getD st.nextId, d⟩
  (t, ⟨st.trades ++ [t], st.nextId + 1⟩)

def runTrades {α : Type} (st : SessionLog α)
    (ms : List (Option Nat × α)) : SessionLog α :=
  ms.foldl (fun s m => (newTrade s m.1 m.2).2) st

theorem runTrades_none_ids {α : Type} (ms : List (Option Nat × α))
    (st : SessionLog α) (h : ∀ m ∈ ms, m.1 = none) :
    (runTrades st ms).trades.map Trade.id
      = st.trades.map Trade.id ++ List.range' st.nextId ms.length
    ∧ (runTrades st ms).nextId = st.nextId + ms.length := by
  induction ms generalizing st with
  | nil => simp [runTrades]
  | cons m rest ih =>
    have hm : m.1 = none := h m (List.mem_cons_self m rest)
    have hstep : runTrades st (m :: rest)
        = runTrades (newTrade st m.1 m.2).2 rest := rfl
    rw [hstep, hm]
    obtain ⟨h1, h2⟩ := ih (newTrade st none m.2).2
      (fun x hx => h x (List.mem_cons_of_mem m hx))
    constructor
    · rw [h1]
      dsimp [newTrade]
      rw [List.map_append, List.range'_succ]
      simp
    · rw [h2]
      dsimp [newTrade]
      try simp only [List.length_cons]
      omega

/-- C10: `newTrade` builds `{ id: nextId++, ...meta }`.  When no meta in
a call sequence carries an `id` key, the assigned ids are exactly
1, 2, 3, … in call order and records are only appended; the counter
always increments, and a meta with an `id` key overrides the assigned id
in the returned (and stored) record. -/
theorem logger_newTrade_ids :
    (∀ (α : Type) (ms : List (Option Nat × α)),
        (∀ m ∈ ms, m.1 = none) →
        (runTrades (SessionLog.start α) ms).trades.map Trade.id
          = List.range' 1 ms.length)
    ∧ (∀ (α : Type) (st : SessionLog α) (idOverride : Option Nat) (d : α),
        (newTrade st idOverride d).2.trades
          = st.trades ++ [(newTrade st idOverride d).1]
        ∧ (newTrade st idOverride d).2.nextId = st.nextId + 1)
    ∧ (∀ (α : Type) (st : SessionLog α) (k : Nat) (d : α),
        (newTrade st (some k) d).1.id = k)
    ∧ (∀ (α : Type) (st : SessionLog α) (d : α),
        (newTrade st none d).1.id = st.nextId) := by
  refine ⟨?_, ?_, ?_, ?_⟩
  · intro α ms h
    have h1 := (runTrades_none_ids ms (SessionLog.start α) h).1
    simpa [SessionLog.start] using h1
  · intro α st io d
    exact ⟨rfl, rfl⟩
  · intro α st k d
    rfl
  · intro α st d
    rfl

theorem logger_newTrade_ids_witness :
    (runTrades (SessionLog.start Nat) [(none, 5), (none, 6)]).trades.map
        Trade.id = List.range' 1 2 :=
  logger_newTrade_ids.1 Nat [(none, 5), (none, 6)] (by simp)

/-! ## DispatchScheduler (`Bot.runWorker`, batch revision)

The tick callback runs every 50 ms: if the in-flight count is at the cap
it returns at once; otherwise it snapshots and sorts the queue, empties
it, and loops over the batch — per job it breaks at the cap, skips
already-executed signatures, and otherwise increments the in-flight
counter and awaits `handleSignal`, adding the signature to
`executedMints` on success and decrementing the counter in `finally`.
Because the callback is `async`, several tick instances can be live at
once; the model below is a small-step system whose interleaving includes
every schedule the event loop can produce. -/

/-- Per-wallet rule object; only `success_rate` matters to the
scheduler's sort. -/
structure Rules where
  success_rate : Option ℚ
deriving DecidableEq

/-- A job on the scheduler queue.  `jid` models the JavaScript object
identity of the pushed signal record (each push creates a fresh object);
`sig` is the transaction signature. -/
structure Job where
  jid : Nat
  wallet : Nat
  sig : Nat
deriving DecidableEq

/-- One live invocation of the tick callback: the not-yet-processed part
of its drained local batch, and the job it is currently awaiting, if
any. -/
structure TickCtx where
  remaining : List Job
  blocked : Option Job
deriving DecidableEq

/-- Scheduler state.  `executed` is `this.executedMints` (transaction
signatures).  `started` and `dropped` are ghost history ledgers
recording the ids of jobs ever admitted (passed to `handleSignal`) and
of jobs discarded by the cap `break`; they are written but never read by
the transitions. -/
structure SchedState where
  cap : Nat
  inFlight : Nat
  nextId : Nat
  queue : List Job
  ctxs : List TickCtx
  executed : List Nat
  started : List Nat
  dropped : List Nat
  tracked : Nat → Option Rules

/-- `(this.tracked.get(w)?.rules || {}).success_rate || 0`. -/
def successRate (tr : Nat → Option Rules) (w : Nat) : ℚ :=
  match tr w with
  | some r => r.success_rate.getD 0
  | none => 0

/-- Stable insertion into a descending-sorted batch. -/
def insertDesc (tr : Nat → Option Rules) (j : Job) : List Job → List Job
  | [] => [j]
  | k :: ks =>
    if successRate tr k.wallet ≤ successRate tr j.wallet then j :: k :: ks
    else k :: insertDesc tr j ks

/-- `[...this.queue].sort((a, b) => rateB - rateA)`: stable descending
sort by the wallet's success rate, looked up in the registry at sort
time. -/
def sortJobs (tr : Nat → Option Rules) (l : List Job) : List Job :=
  l.foldr (insertDesc tr) []

/-- The ingestion side pushes a signal object with a fresh identity. -/
def ingestF (s : SchedState) (w sig : Nat) : SchedState :=
  { s with queue := s.queue ++ [⟨s.nextId, w, sig⟩], nextId := s.nextId + 1 }

/-- Head of the tick callback: if the in-flight count has reached the
cap, return without touching anything; otherwise drain the entire queue
into a fresh sorted local batch. -/
def tickF (s : SchedState) : SchedState :=
  if s.cap ≤ s.inFlight then s
  else { s with queue := [],
                ctxs := s.ctxs ++ [⟨sortJobs s.tracked s.queue, none⟩] }

/-- The wallet-registry hot reload replaces the tracked map wholesale. -/
def reloadF (s : SchedState) (tr : Nat → Option Rules) : SchedState :=
  { s with tracked := tr }

/-- Loop iteration hitting the cap check: `break` — the whole remainder
of the local batch is discarded (recorded in the `dropped` ledger). -/
def breakResult (s : SchedState) (l1 l2 : List TickCtx) (j : Job)
    (rest : List Job) : SchedState :=
  { s with ctxs := l1 ++ ⟨[], none⟩ :: l2,
           dropped := s.dropped ++ (j :: rest).map Job.jid }

/-- Loop iteration on an already-executed signature: `continue`. -/
def skipResult (s : SchedState) (l1 l2 : List TickCtx)
    (rest : List Job) : SchedState :=
  { s with ctxs := l1 ++ ⟨rest, none⟩ :: l2 }

/-- Loop iteration admitting a job: increment the in-flight counter and
start `handleSignal(job)`; the context now awaits it. -/
def startResult (s : SchedState) (l1 l2 : List TickCtx) (j : Job)
    (rest : List Job) : SchedState :=
  { s with ctxs := l1 ++ ⟨rest, some j⟩ :: l2,
           inFlight := s.inFlight + 1,
           started := s.started ++ [j.jid] }

/-- `handleSignal` returns normally (`ok = true`) or throws: on success
the signature is added to `executedMints`; the `finally` block
decrements the in-flight counter either way and the loop resumes. -/
def completeResult (s : SchedState) (l1 l2 : List TickCtx)
    (rem : List Job) (j : Job) (ok : Bool) : SchedState :=
  { s with ctxs := l1 ++ ⟨rem, none⟩ :: l2,
           inFlight := s.inFlight - 1,
           executed := if ok then s.executed ++ [j.sig] else s.executed }

/-- One scheduler event: a signal push, a tick firing, one loop
iteration of a live tick instance, a job completion, or a registry
reload. -/
inductive SchedStep : SchedState → SchedState → Prop where
  | ingest (s : SchedState) (w sig : Nat) : SchedStep s (ingestF s w sig)
  | tick (s : SchedState) : SchedStep s (tickF s)
  | loopBreak (s : SchedState) (l1 l2 : List TickCtx) (j : Job)
      (rest : List Job)
      (hc : s.ctxs = l1 ++ ⟨j :: rest, none⟩ :: l2)
      (hcap : s.cap ≤ s.inFlight) :
      SchedStep s (breakResult s l1 l2 j rest)
  | loopSkip (s : SchedState) (l1 l2 : List TickCtx) (j : Job)
      (rest : List Job)
      (hc : s.ctxs = l1 ++ ⟨j :: rest, none⟩ :: l2)
      (hcap : s.inFlight < s.cap)
      (hex : j.sig ∈ s.executed) :
      SchedStep s (skipResult s l1 l2 rest)
  | loopStart (s : SchedState) (l1 l2 : List TickCtx) (j : Job)
      (rest : List Job)
      (hc : s.ctxs = l1 ++ ⟨j :: rest, none⟩ :: l2)
      (hcap : s.inFlight < s.cap)
      (hex : j.sig ∉ s.executed) :
      SchedStep s (startResult s l1 l2 j rest)
  | complete (s : SchedState) (l1 l2 : List TickCtx) (rem : List Job)
      (j : Job) (ok : Bool)
      (hc : s.ctxs = l1 ++ ⟨rem, some j⟩ :: l2) :
      SchedStep s (completeResult s l1 l2 rem j ok)
  | reload (s : SchedState) (tr : Nat → Option Rules) :
      SchedStep s (reloadF s tr)

/-- The `Bot` constructor state: idle scheduler, empty queue, nothing
executed.  `cap` is `cfg.maxInFlight`. -/
def initSched (cap : Nat) (tr : Nat → Option Rules) : SchedState :=
  { cap := cap, inFlight := 0, nextId := 0, queue := [], ctxs := [],
    executed := [], started := [], dropped := [], tracked := tr }

def SchedReachable (cap : Nat) (tr : Nat → Option Rules)
    (s : SchedState) : Prop :=
  Relation.ReflTransGen SchedStep (initSched cap tr) s

theorem SchedStep.cap_eq {a b : SchedState} (h : SchedStep a b) :
    b.cap = a.cap := by
  cases h with
  | tick =>
    unfold tickF
    split <;> rfl
  | ingest w sig => rfl
  | loopBreak l1 l2 j rest hc hcap => rfl
  | loopSkip l1 l2 j rest hc hcap hex => rfl
  | loopStart l1 l2 j rest hc hcap hex => rfl
  | complete l1 l2 rem j ok hc => rfl
  | reload tr => rfl

theorem SchedStep.inFlight_le {a b : SchedState} (h : SchedStep a b)
    (hle : a.inFlight ≤ a.cap) : b.inFlight ≤ b.cap := by
  cases h with
  | tick =>
    unfold tickF
    split <;> exact hle
  | ingest w sig => exact hle
  | loopBreak l1 l2 j rest hc hcap => exact hle
  | loopSkip l1 l2 j rest hc hcap hex => exact hle
  | loopStart l1 l2 j rest hc hcap hex =>
    show a.inFlight + 1 ≤ a.cap
    omega
  | complete l1 l2 rem j ok hc =>
    show a.inFlight - 1 ≤ a.cap
    omega
  | reload tr => exact hle

theorem sched_reach_inFlight {cap : Nat} {tr : Nat → Option Rules}
    {s : SchedState} (h : SchedReachable cap tr s) :
    s.inFlight ≤ s.cap ∧ s.cap = cap := by
  induction h with
  | refl => exact ⟨Nat.zero_le _, rfl⟩
  | tail hab hbc ih => exact ⟨hbc.inFlight_le ih.1, hbc.cap_eq.trans ih.2⟩

/-- C2: in every reachable scheduler state the in-flight counter is at
most the configured cap; a tick that fires at the cap changes nothing
(admits nothing, drains nothing); and any step taken at the cap admits
no job (the `started` ledger is unchanged and the counter does not
grow). -/
theorem sched_inFlight_le_cap :
    (∀ (cap : Nat) (tr : Nat → Option Rules) (s : SchedState),
        SchedReachable cap tr s → s.inFlight ≤ cap)
    ∧ (∀ t : SchedState, t.cap ≤ t.inFlight → tickF t = t)
    ∧ (∀ t u : SchedState, SchedStep t u → t.cap ≤ t.inFlight →
        u.started = t.started ∧ u.inFlight ≤ t.inFlight) := by
  refine ⟨?_, ?_, ?_⟩
  · intro cap tr s h
    obtain ⟨h1, h2⟩ := sched_reach_inFlight h
    rw [← h2]
    exact h1
  · intro t ht
    unfold tickF
    rw [if_pos ht]
  · intro t u hstep hcap
    cases hstep with
    | ingest w sig => exact ⟨rfl, le_refl _⟩
    | tick =>
      unfold tickF
      rw [if_pos hcap]
      exact ⟨rfl, le_refl _⟩
    | loopBreak l1 l2 j rest hc hcap2 => exact ⟨rfl, le_refl _⟩
    | loopSkip l1 l2 j rest hc hcap2 hex => exact absurd hcap2 (by omega)
    | loopStart l1 l2 j rest hc hcap2 hex => exact absurd hcap2 (by omega)
    | complete l1 l2 rem j ok hc => exact ⟨rfl, Nat.sub_le _ _⟩
    | reload tr => exact ⟨rfl, le_refl _⟩

/-- A concrete state sitting exactly at its cap. -/
def capState : SchedState :=
  { cap := 1, inFlight := 1, nextId := 0, queue := [], ctxs := [],
    executed := [], started := [], dropped := [], tracked := fun _ => none }

theorem sched_inFlight_le_cap_witness :
    (initSched 3 (fun _ => none)).inFlight ≤ 3
    ∧ tickF capState = capState
    ∧ ((ingestF capState 0 7).started = capState.started
        ∧ (ingestF capState 0 7).inFlight ≤ capState.inFlight) :=
  ⟨sched_inFlight_le_cap.1 3 (fun _ => none) _ Relation.ReflTransGen.refl,
   sched_inFlight_le_cap.2.1 capState (by decide),
   sched_inFlight_le_cap.2.2 capState _ (SchedStep.ingest capState 0 7)
     (by decide)⟩

theorem insertDesc_perm (tr : Nat → Option Rules) (j : Job)
    (l : List Job) : (insertDesc tr j l).Perm (j :: l) := by
  induction l with
  | nil => exact List.Perm.refl _
  | cons k ks ih =>
    unfold insertDesc
    split
    · exact List.Perm.refl _
    · exact (List.Perm.cons k ih).trans (List.Perm.swap j k ks)

theorem sortJobs_perm (tr : Nat → Option Rules) (l : List Job) :
    (sortJobs tr l).Perm l := by
  induction l with
  | nil => exact List.Perm.nil
  | cons x xs ih =>
    have h1 : sortJobs tr (x :: xs) = insertDesc tr x (sortJobs tr xs) := rfl
    rw [h1]
    exact (insertDesc_perm tr x _).trans (List.Perm.cons x ih)

theorem insertDesc_sorted (tr : Nat → Option Rules) (j : Job)
    (l : List Job)
    (h : l.Sorted (fun a b => successRate tr b.wallet ≤ successRate tr a.wallet)) :
    (insertDesc tr j l).Sorted
      (fun a b => successRate tr b.wallet ≤ successRate tr a.wallet) := by
  induction l with
  | nil => simp [insertDesc]
  | cons k ks ih =>
    rw [List.sorted_cons] at h
    obtain ⟨hk, hks⟩ := h
    unfold insertDesc
    split
    case isTrue hcmp =>
      rw [List.sorted_cons]
      refine ⟨?_, ?_⟩
      · intro b hb
        rcases List.mem_cons.mp hb with rfl | hb2
        · exact hcmp
        · exact le_trans (hk b hb2) hcmp
      · rw [List.sorted_cons]
        exact ⟨hk, hks⟩
    case isFalse hcmp =>
      rw [List.sorted_cons]
      refine ⟨?_, ih hks⟩
      intro b hb
      have hmem := (insertDesc_perm tr j ks).mem_iff.mp hb
      rcases List.mem_cons.mp hmem with rfl | hbks
      · exact le_of_lt (not_le.mp hcmp)
      · exact hk b hbks

theorem sortJobs_sorted (tr : Nat → Option Rules) (l : List Job) :
    (sortJobs tr l).Sorted
      (fun a b => successRate tr b.wallet ≤ successRate tr a.wallet) := by
  induction l with
  | nil => simp [sortJobs]
  | cons x xs ih => exact insertDesc_sorted tr x _ ih

/-- Registry snapshot for the documented instance: wallet 1 has success
rate 0.8, wallet 2 has success rate 0.3. -/
def tracked48 : Nat → Option Rules := fun w =>
  if w = 1 then some ⟨some (4/5)⟩
  else if w = 2 then some ⟨some (3/10)⟩
  else none

/-- The pending signal of the 0.3-rate wallet (pushed first). -/
def jobLow : Job := ⟨0, 2, 100⟩

/-- The pending signal of the 0.8-rate wallet (pushed second). -/
def jobHigh : Job := ⟨1, 1, 101⟩

/-- Reachable state with cap 1 and both signals pending. -/
def s48 : SchedState := ingestF (ingestF (initSched 1 tracked48) 2 100) 1 101

theorem sortJobs_s48 : sortJobs s48.tracked s48.queue = [jobHigh, jobLow] := by
  show sortJobs tracked48 [jobLow, jobHigh] = _
  norm_num [sortJobs, insertDesc, successRate, tracked48, jobLow, jobHigh]

theorem tickF_s48_ctxs : (tickF s48).ctxs = [⟨[jobHigh, jobLow], none⟩] := by
  unfold tickF
  rw [if_neg (by decide : ¬ s48.cap ≤ s48.inFlight)]
  show s48.ctxs ++ [⟨sortJobs s48.tracked s48.queue, none⟩] = _
  rw [sortJobs_s48]
  rfl

/-- C4: the drained batch is sorted descending by the wallet's
success rate as looked up in the tracked map at sort time; sorting only
reorders (every job stays eligible, none is excluded); a wallet missing
from the registry, or whose rules carry no `success_rate`, sorts with
rate 0; and in the concrete instance — rates 0.8 and 0.3 pending, cap 1
— the first job that any scheduler step can admit is the 0.8 wallet's
job. -/
theorem sched_priority_sort :
    (∀ (tr : Nat → Option Rules) (l : List Job),
        (sortJobs tr l).Sorted
          (fun a b => successRate tr b.wallet ≤ successRate tr a.wallet))
    ∧ (∀ (tr : Nat → Option Rules) (l : List Job), (sortJobs tr l).Perm l)
    ∧ (∀ (tr : Nat → Option Rules) (w : Nat),
        tr w = none → successRate tr w = 0)
    ∧ (∀ (tr : Nat → Option Rules) (w : Nat) (r : Rules),
        tr w = some r → r.success_rate = none → successRate tr w = 0)
    ∧ ((tickF s48).ctxs = [⟨[jobHigh, jobLow], none⟩]
        ∧ ∀ u : SchedState, SchedStep (tickF s48) u →
            u.started = [] ∨ u.started = [jobHigh.jid]) := by
  refine ⟨sortJobs_sorted, sortJobs_perm, ?_, ?_, ?_, ?_⟩
  · intro tr w h
    unfold successRate
    rw [h]
  · intro tr w r h1 h2
    unfold successRate
    rw [h1]
    dsimp only
    rw [h2]
    rfl
  · exact tickF_s48_ctxs
  · intro u hstep
    have hstarted : (tickF s48).started = [] := rfl
    have hexec : (tickF s48).executed = [] := rfl
    have hcapv : (tickF s48).cap = 1 := rfl
    have hinf : (tickF s48).inFlight = 0 := rfl
    cases hstep with
    | ingest w sig =>
      left
      exact hstarted
    | tick =>
      left
      unfold tickF
      split <;> exact hstarted
    | loopBreak l1 l2 j rest hc hcap =>
      rw [hcapv, hinf] at hcap
      omega
    | loopSkip l1 l2 j rest hc hcap hex =>
      rw [hexec] at hex
      exact absurd hex (List.not_mem_nil _)
    | loopStart l1 l2 j rest hc hcap hex =>
      right
      rw [tickF_s48_ctxs] at hc
      have hj : j = jobHigh := by
        cases l1 with
        | nil =>
          rw [List.nil_append] at hc
          injection hc with hhead _
          injection hhead with hrem _
          injection hrem with hj _
          exact hj.symm
        | cons c l1t =>
          rw [List.cons_append] at hc
          injection hc with _ htail
          exact absurd htail.symm (by simp)
      subst hj
      show (tickF s48).started ++ [jobHigh.jid] = [jobHigh.jid]
      rw [hstarted]
      rfl
    | complete l1 l2 rem j ok hc =>
      rw [tickF_s48_ctxs] at hc
      exfalso
      cases l1 with
      | nil =>
        rw [List.nil_append] at hc
        injection hc with hhead _
        injection hhead with _ hblocked
        exact Option.noConfusion hblocked
      | cons c l1t =>
        rw [List.cons_append] at hc
        injection hc with _ htail
        exact absurd htail.symm (by simp)
    | reload tr =>
      left
      exact hstarted

theorem sched_priority_sort_witness :
    successRate (fun _ => none) 0 = 0
    ∧ ((ingestF (tickF s48) 0 7).started = []
        ∨ (ingestF (tickF s48) 0 7).started = [jobHigh.jid]) :=
  ⟨sched_priority_sort.2.2.1 (fun _ => none) 0 rfl,
   sched_priority_sort.2.2.2.2.2 (ingestF (tickF s48) 0 7)
     (SchedStep.ingest (tickF s48) 0 7)⟩

/-- Registry snapshot with no rule data (rates default to 0). -/
def tracked0 : Nat → Option Rules := fun _ => none

/-- The signal whose execution throws. -/
def jobErr : Job := ⟨0, 0, 7⟩

def sErr0 : SchedState := ingestF (initSched 1 tracked0) 0 7

def sErr1 : SchedState := tickF sErr0

/-- `jobErr` admitted (passed to `handleSignal`). -/
def sErr2 : SchedState := startResult sErr1 [] [] jobErr []

/-- `handleSignal(jobErr)` throws; the catch logs and the finally
decrements. -/
def sErr3 : SchedState := completeResult sErr2 [] [] [] jobErr false

theorem sErr1_ctxs : sErr1.ctxs = [⟨[jobErr], none⟩] := rfl

/-- C5 counterexample: a job whose execution errors is NOT added to the
executed-set (`executedMints.add` sits after the `await` inside `try`,
so a throw skips it): in the reachable run below, after the failing
completion of signature 7 the executed-set is still empty, so the claim
that an erroring signature is marked processed is false (the in-flight
counter is, however, decremented back to 0). -/
theorem sched_error_not_marked :
    SchedReachable 1 tracked0 sErr3
    ∧ SchedStep sErr2 sErr3
    ∧ sErr2.started = [jobErr.jid]
    ∧ sErr3.executed = []
    ∧ jobErr.sig ∉ sErr3.executed
    ∧ sErr2.inFlight = 1
    ∧ sErr3.inFlight = 0 := by
  have t1 : SchedStep (initSched 1 tracked0) sErr0 :=
    SchedStep.ingest (initSched 1 tracked0) 0 7
  have t2 : SchedStep sErr0 sErr1 := SchedStep.tick sErr0
  have t3 : SchedStep sErr1 sErr2 :=
    SchedStep.loopStart sErr1 [] [] jobErr [] sErr1_ctxs
      (by decide) (by decide)
  have t4 : SchedStep sErr2 sErr3 :=
    SchedStep.complete sErr2 [] [] [] jobErr false rfl
  refine ⟨?_, t4, rfl, rfl, ?_, rfl, rfl⟩
  · exact Relation.ReflTransGen.tail
      (Relation.ReflTransGen.tail
        (Relation.ReflTransGen.tail (Relation.ReflTransGen.single t1) t2) t3)
      t4
  · intro h
    exact absurd h (by decide)

/-- C5 amended: completing a job decrements the in-flight counter
whether it succeeded or threw, but its signature is added to the
executed-set only when it succeeded; on an error the signature is not
marked, so a later occurrence of the same signature can be admitted
again.  Admission itself only ever starts jobs whose signature is not in
the executed-set, so a successfully executed signature is never
dispatched again. -/
theorem sched_executed_only_on_success :
    (∀ (s : SchedState) (l1 l2 : List TickCtx) (rem : List Job) (j : Job)
        (ok : Bool),
        (completeResult s l1 l2 rem j ok).inFlight = s.inFlight - 1)
    ∧ (∀ (s : SchedState) (l1 l2 : List TickCtx) (rem : List Job) (j : Job),
        (completeResult s l1 l2 rem j true).executed = s.executed ++ [j.sig])
    ∧ (∀ (s : SchedState) (l1 l2 : List TickCtx) (rem : List Job) (j : Job),
        (completeResult s l1 l2 rem j false).executed = s.executed)
    ∧ (∀ s u : SchedState, SchedStep s u →
        u.started = s.started
        ∨ ∃ j : Job, u.started = s.started ++ [j.jid] ∧ j.sig ∉ s.executed) := by
  refine ⟨fun _ _ _ _ _ _ => rfl, fun _ _ _ _ _ => rfl,
    fun _ _ _ _ _ => rfl, ?_⟩
  intro s u hstep
  cases hstep with
  | ingest w sig => exact Or.inl rfl
  | tick =>
    left
    unfold tickF
    split <;> rfl
  | loopBreak l1 l2 j rest hc hcap => exact Or.inl rfl
  | loopSkip l1 l2 j rest hc hcap hex => exact Or.inl rfl
  | loopStart l1 l2 j rest hc hcap hex => exact Or.inr ⟨j, rfl, hex⟩
  | complete l1 l2 rem j ok hc => exact Or.inl rfl
  | reload tr => exact Or.inl rfl

theorem sched_executed_only_on_success_witness :
    (ingestF (initSched 1 tracked0) 0 9).started
        = (initSched 1 tracked0).started
    ∨ ∃ j : Job, (ingestF (initSched 1 tracked0) 0 9).started
        = (initSched 1 tracked0).started ++ [j.jid]
        ∧ j.sig ∉ (initSched 1 tracked0).executed :=
  sched_executed_only_on_success.2.2.2 _ _
    (SchedStep.ingest (initSched 1 tracked0) 0 9)

/-- Ids of the jobs still pending in a tick context's local batch. -/
def remJids (c : TickCtx) : List Nat := c.remaining.map Job.jid

/-- The multiset of job ids across all places a job id can live: the
shared queue, the live batches, the dropped ledger, and the started
ledger.  A job id occurs in exactly one of them, exactly once. -/
def ledger (s : SchedState) : Multiset Nat :=
  (s.queue.map Job.jid : Multiset Nat)
  + (s.ctxs.map fun c => (remJids c : Multiset Nat)).sum
  + (s.dropped : Multiset Nat)
  + (s.started : Multiset Nat)

/-- Scheduler well-formedness: job ids are globally unique and below the
id counter. -/
def SchedInv (s : SchedState) : Prop :=
  (ledger s).Nodup ∧ ∀ x ∈ ledger s, x < s.nextId

theorem ctxs_sum_decomp (l1 l2 : List TickCtx) (c : TickCtx) :
    ((l1 ++ c :: l2).map fun d => (remJids d : Multiset Nat)).sum
      = (l1.map fun d => (remJids d : Multiset Nat)).sum
        + (remJids c : Multiset Nat)
        + (l2.map fun d => (remJids d : Multiset Nat)).sum := by
  rw [List.map_append, List.sum_append, List.map_cons, List.sum_cons]
  abel

theorem ledger_ingest (s : SchedState) (w sig : Nat) :
    ledger (ingestF s w sig) = ledger s + {s.nextId} := by
  unfold ledger ingestF
  dsimp only
  rw [List.map_append]
  rw [← Multiset.coe_add]
  simp only [List.map_cons, List.map_nil, Multiset.coe_singleton]
  abel

theorem ledger_tick (s : SchedState) : ledger (tickF s) = ledger s := by
  unfold tickF
  split
  · rfl
  · unfold ledger
    dsimp only
    have hperm : ((sortJobs s.tracked s.queue).map Job.jid : Multiset Nat)
        = (s.queue.map Job.jid : Multiset Nat) :=
      Multiset.coe_eq_coe.mpr ((sortJobs_perm s.tracked s.queue).map Job.jid)
    rw [List.map_append, List.sum_append]
    simp only [List.map_cons, List.map_nil, List.sum_cons, List.sum_nil,
      remJids]
    rw [hperm]
    simp only [Multiset.coe_nil]
    abel

theorem ledger_break (s : SchedState) (l1 l2 : List TickCtx) (j : Job)
    (rest : List Job) (hc : s.ctxs = l1 ++ ⟨j :: rest, none⟩ :: l2) :
    ledger (breakResult s l1 l2 j rest) = ledger s := by
  unfold ledger breakResult
  dsimp only
  rw [hc, ctxs_sum_decomp, ctxs_sum_decomp]
  rw [← Multiset.coe_add]
  simp only [remJids, List.map_nil, Multiset.coe_nil]
  abel

theorem ledger_skip (s : SchedState) (l1 l2 : List TickCtx) (j : Job)
    (rest : List Job) (hc : s.ctxs = l1 ++ ⟨j :: rest, none⟩ :: l2) :
    ledger (skipResult s l1 l2 rest) + {j.jid} = ledger s := by
  unfold ledger skipResult
  dsimp only
  rw [hc, ctxs_sum_decomp, ctxs_sum_decomp]
  simp only [remJids, List.map_cons]
  rw [← Multiset.cons_coe, ← Multiset.singleton_add]
  abel

theorem ledger_start (s : SchedState) (l1 l2 : List TickCtx) (j : Job)
    (rest : List Job) (hc : s.ctxs = l1 ++ ⟨j :: rest, none⟩ :: l2) :
    ledger (startResult s l1 l2 j rest) = ledger s := by
  unfold ledger startResult
  dsimp only
  rw [hc, ctxs_sum_decomp, ctxs_sum_decomp]
  rw [← Multiset.coe_add]
  simp only [remJids, List.map_cons, Multiset.coe_singleton]
  rw [← Multiset.cons_coe, ← Multiset.singleton_add]
  abel

theorem ledger_complete (s : SchedState) (l1 l2 : List TickCtx)
    (rem : List Job) (j : Job) (ok : Bool)
    (hc : s.ctxs = l1 ++ ⟨rem, some j⟩ :: l2) :
    ledger (completeResult s l1 l2 rem j ok) = ledger s := by
  unfold ledger completeResult
  dsimp only
  rw [hc, ctxs_sum_decomp, ctxs_sum_decomp]
  rfl

theorem sched_inv_init (cap : Nat) (tr : Nat → Option Rules) :
    SchedInv (initSched cap tr) := by
  constructor
  · simp [ledger, initSched]
  · intro x hx
    simp [ledger, initSched] at hx

theorem tickF_nextId (s : SchedState) : (tickF s).nextId = s.nextId := by
  unfold tickF
  split <;> rfl

theorem SchedStep.inv {a b : SchedState} (h : SchedStep a b)
    (hi : SchedInv a) : SchedInv b := by
  obtain ⟨hnd, hfresh⟩ := hi
  cases h with
  | ingest w sig =>
    constructor
    · rw [ledger_ingest]
      rw [Multiset.nodup_add]
      refine ⟨hnd, Multiset.nodup_singleton _, ?_⟩
      rw [Multiset.disjoint_left]
      intro x hx hmem
      rw [Multiset.mem_singleton] at hmem
      subst hmem
      exact absurd (hfresh _ hx) (lt_irrefl _)
    · intro x hx
      rw [ledger_ingest, Multiset.mem_add] at hx
      show x < a.nextId + 1
      rcases hx with hx | hx
      · have := hfresh x hx
        omega
      · rw [Multiset.mem_singleton] at hx
        omega
  | tick =>
    refine ⟨by rw [ledger_tick]; exact hnd, ?_⟩
    intro x hx
    rw [ledger_tick] at hx
    rw [tickF_nextId]
    exact hfresh x hx
  | loopBreak l1 l2 j rest hc hcap =>
    refine ⟨by rw [ledger_break a l1 l2 j rest hc]; exact hnd, ?_⟩
    intro x hx
    rw [ledger_break a l1 l2 j rest hc] at hx
    exact hfresh x hx
  | loopSkip l1 l2 j rest hc hcap hex =>
    have hls := ledger_skip a l1 l2 j rest hc
    constructor
    · have h2 : (ledger (skipResult a l1 l2 rest) + {j.jid}).Nodup := by
        rw [hls]
        exact hnd
      exact (Multiset.nodup_add.mp h2).1
    · intro x hx
      have h3 : x ∈ ledger a := by
        rw [← hls]
        exact Multiset.mem_add.mpr (Or.inl hx)
      exact hfresh x h3
  | loopStart l1 l2 j rest hc hcap hex =>
    refine ⟨by rw [ledger_start a l1 l2 j rest hc]; exact hnd, ?_⟩
    intro x hx
    rw [ledger_start a l1 l2 j rest hc] at hx
    exact hfresh x hx
  | complete l1 l2 rem j ok hc =>
    refine ⟨by rw [ledger_complete a l1 l2 rem j ok hc]; exact hnd, ?_⟩
    intro x hx
    rw [ledger_complete a l1 l2 rem j ok hc] at hx
    exact hfresh x hx
  | reload tr =>
    exact ⟨hnd, hfresh⟩

theorem sched_reach_inv {cap : Nat} {tr : Nat → Option Rules}
    {s : SchedState} (h : SchedReachable cap tr s) : SchedInv s := by
  induction h with
  | refl => exact sched_inv_init cap tr
  | tail hab hbc ih => exact hbc.inv ih

theorem SchedStep.dropped_mono {a b : SchedState} (h : SchedStep a b) :
    ∀ x ∈ a.dropped, x ∈ b.dropped := by
  cases h with
  | ingest w sig => exact fun x hx => hx
  | tick =>
    intro x hx
    unfold tickF
    split <;> exact hx
  | loopBreak l1 l2 j rest hc hcap =>
    exact fun x hx => List.mem_append_left _ hx
  | loopSkip l1 l2 j rest hc hcap hex => exact fun x hx => hx
  | loopStart l1 l2 j rest hc hcap hex => exact fun x hx => hx
  | complete l1 l2 rem j ok hc => exact fun x hx => hx
  | reload tr => exact fun x hx => hx

theorem reach_from_dropped_mono {s u : SchedState}
    (h : Relation.ReflTransGen SchedStep s u) :
    ∀ x ∈ s.dropped, x ∈ u.dropped := by
  induction h with
  | refl => exact fun x hx => hx
  | tail hab hbc ih => exact fun x hx => hbc.dropped_mono x (ih x hx)

theorem inv_dropped_disjoint {u : SchedState} (hinv : SchedInv u) :
    ∀ x ∈ u.dropped, x ∉ u.started ∧ x ∉ u.queue.map Job.jid := by
  intro x hx
  have hnd := hinv.1
  unfold ledger at hnd
  have h1 := Multiset.nodup_add.mp hnd
  have h2 := Multiset.nodup_add.mp h1.1
  constructor
  · intro hxs
    have hxd : x ∈ (u.queue.map Job.jid : Multiset Nat)
        + (u.ctxs.map fun c => (remJids c : Multiset Nat)).sum
        + (u.dropped : Multiset Nat) :=
      Multiset.mem_add.mpr (Or.inr (Multiset.mem_coe.mpr hx))
    exact Multiset.disjoint_left.mp h1.2.2 hxd (Multiset.mem_coe.mpr hxs)
  · intro hxq
    have hxQC : x ∈ (u.queue.map Job.jid : Multiset Nat)
        + (u.ctxs.map fun c => (remJids c : Multiset Nat)).sum :=
      Multiset.mem_add.mpr (Or.inl (Multiset.mem_coe.mpr hxq))
    exact Multiset.disjoint_left.mp h2.2.2 hxQC (Multiset.mem_coe.mpr hx)

/-- C3: a tick that fires below the cap empties the shared queue
entirely into a fresh sorted local batch; and a job discarded by the cap
`break` is gone permanently — in every later state it is still in the
dropped ledger, it has not been started (so it is never executed), and
it is not back on the queue. -/
theorem sched_drain_and_drop_permanent :
    (∀ t : SchedState, t.inFlight < t.cap →
        (tickF t).queue = []
        ∧ (tickF t).ctxs = t.ctxs ++ [⟨sortJobs t.tracked t.queue, none⟩])
    ∧ (∀ (cap : Nat) (tr : Nat → Option Rules) (s u : SchedState),
        SchedReachable cap tr s → Relation.ReflTransGen SchedStep s u →
        ∀ x ∈ s.dropped,
          x ∈ u.dropped ∧ x ∉ u.started ∧ x ∉ u.queue.map Job.jid) := by
  constructor
  · intro t ht
    unfold tickF
    rw [if_neg (by omega)]
    exact ⟨rfl, rfl⟩
  · intro cap tr s u hreach hsu x hx
    have hud : x ∈ u.dropped := reach_from_dropped_mono hsu x hx
    have huinv : SchedInv u :=
      sched_reach_inv (Relation.ReflTransGen.trans hreach hsu)
    obtain ⟨h1, h2⟩ := inv_dropped_disjoint huinv x hud
    exact ⟨hud, h1, h2⟩

def jW8 : Job := ⟨0, 0, 8⟩

def jW9 : Job := ⟨1, 0, 9⟩

def jW10 : Job := ⟨2, 0, 10⟩

def w2 : SchedState := ingestF (ingestF (initSched 1 tracked0) 0 8) 0 9

def w3 : SchedState := tickF w2

def w4 : SchedState := startResult w3 [] [] jW8 [jW9]

def w5 : SchedState := completeResult w4 [] [] [jW9] jW8 false

def w6 : SchedState := ingestF w5 0 10

def w7 : SchedState := tickF w6

def w8 : SchedState := startResult w7 [⟨[jW9], none⟩] [] jW10 []

def w9 : SchedState := breakResult w8 [] [⟨[], some jW10⟩] jW9 []

theorem w3_ctxs : w3.ctxs = [⟨[jW8, jW9], none⟩] := by
  have hs : sortJobs w2.tracked w2.queue = [jW8, jW9] := by
    show sortJobs tracked0 [jW8, jW9] = _
    norm_num [sortJobs, insertDesc, successRate, tracked0]
  unfold w3 tickF
  rw [if_neg (by decide : ¬ w2.cap ≤ w2.inFlight)]
  show w2.ctxs ++ [⟨sortJobs w2.tracked w2.queue, none⟩] = _
  rw [hs]
  rfl

theorem w7_ctxs : w7.ctxs = [⟨[jW9], none⟩, ⟨[jW10], none⟩] := by
  have hs : sortJobs w6.tracked w6.queue = [jW10] := by
    show sortJobs tracked0 [jW10] = _
    rfl
  unfold w7 tickF
  rw [if_neg (by decide : ¬ w6.cap ≤ w6.inFlight)]
  show w6.ctxs ++ [⟨sortJobs w6.tracked w6.queue, none⟩] = _
  rw [hs]
  rfl

theorem w9_reachable : SchedReachable 1 tracked0 w9 := by
  have t1 : SchedStep (initSched 1 tracked0)
      (ingestF (initSched 1 tracked0) 0 8) :=
    SchedStep.ingest (initSched 1 tracked0) 0 8
  have t2 : SchedStep (ingestF (initSched 1 tracked0) 0 8) w2 :=
    SchedStep.ingest (ingestF (initSched 1 tracked0) 0 8) 0 9
  have t3 : SchedStep w2 w3 := SchedStep.tick w2
  have t4 : SchedStep w3 w4 :=
    SchedStep.loopStart w3 [] [] jW8 [jW9] w3_ctxs (by decide) (by decide)
  have t5 : SchedStep w4 w5 :=
    SchedStep.complete w4 [] [] [jW9] jW8 false rfl
  have t6 : SchedStep w5 w6 := SchedStep.ingest w5 0 10
  have t7 : SchedStep w6 w7 := SchedStep.tick w6
  have t8 : SchedStep w7 w8 :=
    SchedStep.loopStart w7 [⟨[jW9], none⟩] [] jW10 [] w7_ctxs
      (by decide) (by decide)
  have t9 : SchedStep w8 w9 :=
    SchedStep.loopBreak w8 [] [⟨[], some jW10⟩] jW9 [] rfl (by decide)
  have r1 := Relation.ReflTransGen.single t1
  have r2 := Relation.ReflTransGen.tail r1 t2
  have r3 := Relation.ReflTransGen.tail r2 t3
  have r4 := Relation.ReflTransGen.tail r3 t4
  have r5 := Relation.ReflTransGen.tail r4 t5
  have r6 := Relation.ReflTransGen.tail r5 t6
  have r7 := Relation.ReflTransGen.tail r6 t7
  have r8 := Relation.ReflTransGen.tail r7 t8
  exact Relation.ReflTransGen.tail r8 t9

theorem sched_drain_and_drop_permanent_witness :
    ((tickF w2).queue = []
      ∧ (tickF w2).ctxs = w2.ctxs ++ [⟨sortJobs w2.tracked w2.queue, none⟩])
    ∧ (jW9.jid ∈ w9.dropped ∧ jW9.jid ∉ w9.started
        ∧ jW9.jid ∉ w9.queue.map Job.jid) :=
  ⟨sched_drain_and_drop_permanent.1 w2 (by decide),
   sched_drain_and_drop_permanent.2 1 tracked0 w9 w9 w9_reachable
     Relation.ReflTransGen.refl jW9.jid (by decide)⟩

end CopyBot
